import Mathlib

/-!
Verification of the html-to-slack conversion pipeline (`src/parsers/index.ts`).

The development shallowly embeds the source file's functions over a DOM tree
type (`Node`, the node shape produced by the external HTML-to-tree parser) and
a JSON-object model (`Elem`) of the block/inline objects the code constructs.
JavaScript exceptions (the code can dereference `children[0]` of an empty
array) are modelled with `Except Unit`.  Recursion over the nested `Node`
tree is implemented with an explicit fuel parameter (so that all definitions
are structural and kernel-reducible); the fuel is instantiated with `sizeOf`
of the tree and proved irrelevant for any sufficiently large value.
-/

namespace HtmlToSlack

/-- JavaScript `\s` restricted to the ASCII whitespace characters that occur
in this development. -/
def isJsWhitespace (c : Char) : Bool :=
  c = ' ' || c = '\t' || c = '\n' || c = '\r' || c = '\x0b' || c = '\x0c'

/-- The characters matched by `[ \t]` in `compressHTML`'s pre-extraction
regex. -/
def isSpaceTab (c : Char) : Bool := c = ' ' || c = '\t'

/-- JavaScript `\w`: letters, digits and underscore. -/
def isWordChar (c : Char) : Bool := c.isAlpha || c.isDigit || c = '_'

/-- The style object threaded through `parseText`.  The source only ever
assigns `true` to a flag, so "key absent" and "flag false" coincide and the
object is modelled as four booleans. -/
structure Style where
  bold : Bool
  italic : Bool
  strike : Bool
  code : Bool
deriving DecidableEq, Repr

/-- The empty style object `{}` (the default `style` parameter of
`parseText`). -/
def emptyStyle : Style := ⟨false, false, false, false⟩

/-- `Object.keys(style).length > 0` for a style object: at least one flag has
been set. -/
def Style.isNonempty (s : Style) : Bool := s.bold || s.italic || s.strike || s.code

/-- `if (Object.keys(style).length > 0) textElement.style = {...style}`:
attach the style object only when it is non-empty. -/
def optStyle (s : Style) : Option Style := if s.isNonempty then some s else none

/-- A DOM node as consumed by the tree walker (§6 contract of the external
HTML-to-tree parser): a tag node with name, attribute list and ordered
children, or a text node with raw character data. -/
inductive Node where
  | tag (name : String) (attribs : List (String × String)) (children : List Node)
  | text (data : String)
deriving Repr

/-- `node.attribs.key`: attribute lookup, `none` for JavaScript `undefined`. -/
def getAttr (attribs : List (String × String)) (key : String) : Option String :=
  (attribs.find? (fun p => p.1 = key)).map (fun p => p.2)

mutual

/-- Size of a DOM node, used as recursion fuel for the tree walkers. -/
def Node.size : Node → Nat
  | .text _ => 1
  | .tag _ _ children => 1 + Node.sizeList children

/-- Total size of a list of DOM nodes. -/
def Node.sizeList : List Node → Nat
  | [] => 0
  | n :: ns => Node.size n + Node.sizeList ns

end

/-- The objects built by the walkers, one constructor per distinct object
shape the source constructs:
* `emptyObj` is the empty object `{}` (the initial `block` value, returned
  unchanged for unrecognized tags and failed headers);
* `textEl t st` is `{type:"text", text:t}` with optional `style`;
* `linkEl url t st` is `{type:"link", url:url}` with optional `text` and
  `style` (`url` is `none` when `href` is absent, i.e. `undefined`);
* `listBlock sty els ind` is `{type:"rich_text_list", style:sty, elements:els,
  indent:ind}` (`ind = none` models the `NaN` produced by `parseInt` on a
  missing/non-numeric `indent` attribute);
* `sectionBlock`, `preBlock`, `quoteBlock` are the rich-text containers;
* `imageBlock url alt title` is `{type:"image", image_url:url, alt_text:alt}`
  with optional nested plain-text `title`;
* `headerBlock t` is `{type:"header", text:{type:"plain_text", text:t}}`. -/
inductive Elem where
  | emptyObj
  | textEl (text : String) (style : Option Style)
  | linkEl (url : Option String) (text : Option String) (style : Option Style)
  | listBlock (style : String) (elements : List Elem) (indent : Option Int)
  | sectionBlock (elements : List Elem)
  | preBlock (elements : List Elem)
  | quoteBlock (elements : List Elem)
  | imageBlock (url : Option String) (alt : String) (title : Option String)
  | headerBlock (text : String)
deriving Repr

/-- `Object.keys(element).length === 0`: every constructed object except the
literal `{}` has at least the `type` key (an `undefined`-valued property such
as `image_url: undefined` still creates its key). -/
def Elem.isEmptyObj : Elem → Bool
  | .emptyObj => true
  | _ => false

/-- The result of `parseNode`: either a single block object or an array of
inline elements (`Array.isArray` distinguishes the two at the call sites). -/
inductive PNResult where
  | single (e : Elem)
  | list (es : List Elem)
deriving Repr

/-- Flattening used when a child result is appended to `block.elements`:
a single object contributes itself, an array is spread. -/
def PNResult.toElems : PNResult → List Elem
  | .single e => [e]
  | .list es => es

/-- `.replace(/<br ?\/?>/g, '\n')`: every literal `<br>`, `<br >`, `<br/>`
or `<br />` becomes a newline character, scanning left to right. -/
def replaceBrsL : List Char → List Char
  | '<' :: 'b' :: 'r' :: '>' :: rest => '\n' :: replaceBrsL rest
  | '<' :: 'b' :: 'r' :: ' ' :: '>' :: rest => '\n' :: replaceBrsL rest
  | '<' :: 'b' :: 'r' :: '/' :: '>' :: rest => '\n' :: replaceBrsL rest
  | '<' :: 'b' :: 'r' :: ' ' :: '/' :: '>' :: rest => '\n' :: replaceBrsL rest
  | c :: rest => c :: replaceBrsL rest
  | [] => []

/-- `node.data.replace(/<br ?\/?>/g, '\n').replace(/^\s*$/, '')`: the text
of a text node; after the `<br>` conversion, a string consisting solely of
whitespace (or empty) is blanked to the empty string. -/
def jsTextClean (s : String) : String :=
  let t := replaceBrsL s.data
  if t.all isJsWhitespace then "" else String.mk t

/-- The style-flag switch at the top of `parseText`: `b`/`strong` set `bold`,
`i`/`em` set `italic`, `s`/`del` set `strike`, `code` sets `code`; all other
tag names leave the style unchanged. -/
def updateStyleTag (name : String) (st : Style) : Style :=
  if name = "b" || name = "strong" then { st with bold := true }
  else if name = "i" || name = "em" then { st with italic := true }
  else if name = "s" || name = "del" then { st with strike := true }
  else if name = "code" then { st with code := true }
  else st

/-- `textElement.text = node.children[0].data` guarded by
`node.children[0].type === 'text'`: the anchor's `text` field is set only
when the first child is a text node. -/
def firstTextData : Node → Option String
  | .text d => some d
  | _ => none

/-- Sequential traversal of an `Except`-producing element-list function, as
performed by `texts.push(...parseText(child, {...style}))` in a `for` loop:
results are concatenated in order and a thrown exception aborts the loop. -/
def exMapJoin (f : Node → Except Unit (List Elem)) : List Node → Except Unit (List Elem)
  | [] => Except.ok []
  | c :: cs =>
    match f c with
    | Except.error e => Except.error e
    | Except.ok es =>
      match exMapJoin f cs with
      | Except.error e => Except.error e
      | Except.ok rest => Except.ok (es ++ rest)

/-- Fuel-indexed embedding of `parseText(node, style)`.  A tag node first
updates a local copy of the style set; an `a` tag then produces exactly one
link element (dereferencing `children[0]` — a TypeError, modelled as
`Except.error`, when the children array is empty) and never recurses; any
other tag recurses into every child with a fresh copy of the updated style;
a text node produces exactly one text element.  The fuel only bounds the
recursion depth and is irrelevant once it reaches `Node.size` of the node
(`parseTextF_fuel`). -/
def parseTextF : Nat → Node → Style → Except Unit (List Elem)
  | 0, _, _ => Except.error ()
  | _ + 1, .text d, style => Except.ok [Elem.textEl (jsTextClean d) (optStyle style)]
  | fuel + 1, .tag name attribs children, style =>
    let style2 := updateStyleTag name style
    if name = "a" then
      match children with
      | [] => Except.error ()
      | c :: _ =>
        Except.ok [Elem.linkEl (getAttr attribs "href") (firstTextData c) (optStyle style2)]
    else
      exMapJoin (fun c => parseTextF fuel c style2) children

/-- `parseText(node, style)`, with adequate fuel. -/
def parseText (node : Node) (style : Style) : Except Unit (List Elem) :=
  parseTextF node.size node style

/-- One unfolding step of `parseText` with the recursive occurrences replaced
by `parseText` itself (`parseText_eq_step` proves the two agree). -/
def parseTextStep (node : Node) (style : Style) : Except Unit (List Elem) :=
  match node with
  | .text d => Except.ok [Elem.textEl (jsTextClean d) (optStyle style)]
  | .tag name attribs children =>
    let style2 := updateStyleTag name style
    if name = "a" then
      match children with
      | [] => Except.error ()
      | c :: _ =>
        Except.ok [Elem.linkEl (getAttr attribs "href") (firstTextData c) (optStyle style2)]
    else
      exMapJoin (fun c => parseText c style2) children

/-- `parseHeader(node)`: if the first child exists, is a text node and has
truthy (non-empty) data, return the fully populated header block; otherwise
the `header` object stays the empty object `{}`. -/
def parseHeader (children : List Node) : Elem :=
  match children with
  | .text d :: _ => if d = "" then Elem.emptyObj else Elem.headerBlock d
  | _ => Elem.emptyObj

/-- JavaScript `parseInt` on a string: optional leading whitespace, optional
sign, then a maximal digit prefix; `none` models `NaN`. -/
def jsParseIntStr (s : String) : Option Int :=
  let cs := s.data.dropWhile isJsWhitespace
  let core : List Char → Option Nat := fun ds =>
    let digits := ds.takeWhile Char.isDigit
    if digits = [] then none
    else some (digits.foldl (fun a c => a * 10 + (c.toNat - 48)) 0)
  match cs with
  | '-' :: rest => (core rest).map (fun n => -(n : Int))
  | '+' :: rest => (core rest).map (fun n => (n : Int))
  | _ => (core cs).map (fun n => (n : Int))

/-- `parseInt(node.attribs['indent'])`: `parseInt` of an absent attribute
(`undefined`, coerced to the string "undefined") is `NaN`. -/
def jsParseIntAttr : Option String → Option Int
  | none => none
  | some s => jsParseIntStr s

/-- Tag names whose block shape owns an `elements` array (`'elements' in
block` is true): the list, list-item, preformatted, quote and paragraph
cases of `parseNode`'s switch.  For every other tag (including `img` and the
default case) child results are computed but not appended anywhere. -/
def tagHasElements (name : String) : Bool :=
  name = "ul" || name = "ol" || name = "li" || name = "pre" ||
    name = "blockquote" || name = "p"

/-- The inline-styling and anchor tag names for which `parseNode` delegates
entirely to `parseText`. -/
def isInlineTag (name : String) : Bool :=
  name = "b" || name = "strong" || name = "i" || name = "em" ||
    name = "s" || name = "del" || name = "code" || name = "a"

/-- The heading tag names for which `parseNode` delegates to `parseHeader`. -/
def isHeaderTag (name : String) : Bool :=
  name = "h1" || name = "h2" || name = "h3" || name = "h4" ||
    name = "h5" || name = "h6"

/-- Every tag name `parseNode`'s switch recognizes with a dedicated case. -/
def recognizedTag (name : String) : Bool :=
  tagHasElements name || isInlineTag name || isHeaderTag name || name = "img"

/-- The block shape opened by `parseNode`'s switch for a non-inline,
non-heading tag, with its final `elements` array: `ul`/`ol` build a list
block (indent from `parseInt` of the `indent` attribute), `li`/`p` a
section, `pre` a preformatted block, `blockquote` a quote, `img` an image
leaf (`src`→`image_url`, `alt` defaulting to the empty string, `title` only
when truthy); the default case leaves `block` as the empty object. -/
def mkTagBlock (name : String) (attribs : List (String × String))
    (elements : List Elem) : Elem :=
  if name = "ul" || name = "ol" then
    Elem.listBlock (if name = "ul" then "bullet" else "ordered") elements
      (jsParseIntAttr (getAttr attribs "indent"))
  else if name = "li" || name = "p" then Elem.sectionBlock elements
  else if name = "pre" then Elem.preBlock elements
  else if name = "blockquote" then Elem.quoteBlock elements
  else if name = "img" then
    Elem.imageBlock (getAttr attribs "src") ((getAttr attribs "alt").getD "")
      (match getAttr attribs "title" with
       | some t => if t = "" then none else some t
       | none => none)
  else Elem.emptyObj

/-- One iteration of `parseNode`'s child loop: when the block owns an
`elements` array, the child result is appended (arrays spread) and the
accumulated array is re-filtered to drop empty objects; otherwise the child
result is discarded. -/
def accumChild (hasEls : Bool) (acc : List Elem) (r : PNResult) : List Elem :=
  if hasEls then (acc ++ r.toElems).filter (fun e => !e.isEmptyObj) else acc

/-- `parseNode`'s `for (const child of node.children)` loop: every child is
parsed in order (a thrown exception aborts the whole loop) and its result is
folded into the accumulator with `accumChild`. -/
def exFoldChildren (f : Node → Except Unit PNResult) (hasEls : Bool) :
    List Elem → List Node → Except Unit (List Elem)
  | acc, [] => Except.ok acc
  | acc, c :: cs =>
    match f c with
    | Except.error e => Except.error e
    | Except.ok r => exFoldChildren f hasEls (accumChild hasEls acc r) cs

/-- Fuel-indexed embedding of `parseNode(node)`.  A text node and the inline
tags return `parseText`'s array directly; `h1`–`h6` return `parseHeader`'s
single object; every other tag opens its block shape (the empty object for
unrecognized names), runs the child loop, and returns the single block. -/
def parseNodeF : Nat → Node → Except Unit PNResult
  | 0, _ => Except.error ()
  | _ + 1, .text d => (parseText (.text d) emptyStyle).map PNResult.list
  | fuel + 1, .tag name attribs children =>
    if isInlineTag name then
      (parseText (.tag name attribs children) emptyStyle).map PNResult.list
    else if isHeaderTag name then
      Except.ok (PNResult.single (parseHeader children))
    else
      (exFoldChildren (fun c => parseNodeF fuel c) (tagHasElements name) [] children).map
        (fun els => PNResult.single (mkTagBlock name attribs els))

/-- `parseNode(node)`, with adequate fuel. -/
def parseNode (node : Node) : Except Unit PNResult :=
  parseNodeF node.size node

/-- One unfolding step of `parseNode` with the recursive occurrences replaced
by `parseNode` itself (`parseNode_eq_step` proves the two agree). -/
def parseNodeStep (node : Node) : Except Unit PNResult :=
  match node with
  | .text d => (parseText (.text d) emptyStyle).map PNResult.list
  | .tag name attribs children =>
    if isInlineTag name then
      (parseText (.tag name attribs children) emptyStyle).map PNResult.list
    else if isHeaderTag name then
      Except.ok (PNResult.single (parseHeader children))
    else
      (exFoldChildren parseNode (tagHasElements name) [] children).map
        (fun els => PNResult.single (mkTagBlock name attribs els))

/-- Split at the first literal `</pre>`: `some (content, rest)` when the
closing tag occurs (the lazy `[\s\S]*?` of the pre-extraction regex), `none`
otherwise. -/
def findPreClose : List Char → Option (List Char × List Char)
  | '<' :: '/' :: 'p' :: 'r' :: 'e' :: '>' :: rest => some ([], rest)
  | c :: cs => (findPreClose cs).map (fun p => (c :: p.1, p.2))
  | [] => none

/-- `content.replace(/^\n/, '')`: strip a single leading newline. -/
def stripLeadingNewline : List Char → List Char
  | c :: rest => if c = '\n' then rest else c :: rest
  | [] => []

/-- Match `([ \t]*)<pre>([\s\S]*?)<\/pre>` at the current position: maximal
space/tab run, the literal opening tag, then lazily up to the first closing
tag.  Returns the leading spaces, the raw content and the remainder. -/
def matchPreAt (cs : List Char) : Option (List Char × List Char × List Char) :=
  let ls := cs.takeWhile isSpaceTab
  let rest := cs.dropWhile isSpaceTab
  if ("<pre>".data).isPrefixOf rest then
    match findPreClose (rest.drop 5) with
    | some (content, rest2) => some (ls, content, rest2)
    | none => none
  else none

/-- The replacement `<pre>${preTags.length - 1}</pre>` emitted for the k-th
extracted pre block. -/
def placeholderPre (idx : Nat) : List Char :=
  "<pre>".data ++ (Nat.repr idx).data ++ "</pre>".data

/-- First `compressHTML` pass: extract every `([ \t]*)<pre>...<\/pre>` match
(left to right, one character of advance on failure, like a global regex
replace), push the content (leading newline stripped) and the leading
space/tab run onto the two stores, and emit an indexed placeholder.  The
fuel decreases on every step; `cs.length + 1` is always sufficient. -/
def preExtractAux : Nat → List Char → List (List Char) → List (List Char) →
    (List Char × List (List Char) × List (List Char))
  | 0, cs, tags, lws => (cs, tags, lws)
  | fuel + 1, cs0, tags, lws =>
    match cs0 with
    | [] => ([], tags, lws)
    | c :: cs =>
      match matchPreAt (c :: cs) with
      | some (ls, content, rest) =>
        let out := preExtractAux fuel rest (tags ++ [stripLeadingNewline content]) (lws ++ [ls])
        (placeholderPre tags.length ++ out.1, out.2)
      | none =>
        let out := preExtractAux fuel cs tags lws
        (c :: out.1, out.2)

/-- Match `<(\w+)([^>]*)>` at the current position: a literal `<`, a
non-empty word run, then everything up to a mandatory `>`. -/
def matchAttrTagAt (cs : List Char) : Option (List Char × List Char × List Char) :=
  match cs with
  | '<' :: rest =>
    let name := rest.takeWhile isWordChar
    if name = [] then none
    else
      let r2 := rest.dropWhile isWordChar
      match r2.dropWhile (fun c => c ≠ '>') with
      | '>' :: r3 => some (name, r2.takeWhile (fun c => c ≠ '>'), r3)
      | _ => none
  | _ => none

/-- Second `compressHTML` pass: replace every `<(\w+)([^>]*)>` with
`<$1 data-tag-attr="k">`, storing the raw attribute text `$2` at index k. -/
def attrExtractAux : Nat → List Char → List (List Char) → (List Char × List (List Char))
  | 0, cs, store => (cs, store)
  | fuel + 1, cs0, store =>
    match cs0 with
    | [] => ([], store)
    | c :: cs =>
      match matchAttrTagAt (c :: cs) with
      | some (name, attrs, rest) =>
        let out := attrExtractAux fuel rest (store ++ [attrs])
        ('<' :: name ++ " data-tag-attr=\"".data ++ (Nat.repr store.length).data ++
          "\">".data ++ out.1, out.2)
      | none =>
        let out := attrExtractAux fuel cs store
        (c :: out.1, out.2)

/-- Third `compressHTML` pass, `html.replace(/\n[\n ]*/g, '')`: a newline
and the following run of newlines and spaces are deleted.  `inRun` is true
while inside such a run. -/
def removeNlRuns (inRun : Bool) : List Char → List Char
  | [] => []
  | c :: cs =>
    if inRun && (c = '\n' || c = ' ') then removeNlRuns true cs
    else if c = '\n' then removeNlRuns true cs
    else c :: removeNlRuns false cs

/-- `parseInt` of a digit run (always in range here). -/
def digitsToNat (ds : List Char) : Nat :=
  ds.foldl (fun a c => a * 10 + (c.toNat - 48)) 0

/-- Match `<(\w+) data-tag-attr="(\d+)">` at the current position. -/
def matchAttrRestoreAt (cs : List Char) : Option (List Char × Nat × List Char) :=
  match cs with
  | '<' :: rest =>
    let name := rest.takeWhile isWordChar
    if name = [] then none
    else
      let r2 := rest.dropWhile isWordChar
      if (" data-tag-attr=\"".data).isPrefixOf r2 then
        let r3 := r2.drop (" data-tag-attr=\"".data).length
        let ds := r3.takeWhile Char.isDigit
        if ds = [] then none
        else
          match r3.dropWhile Char.isDigit with
          | '"' :: '>' :: r4 => some (name, digitsToNat ds, r4)
          | _ => none
      else none
  | _ => none

/-- Fourth `compressHTML` pass: restore `<$1${tagAttributes[k]}>` for every
placeholder (an out-of-range index would interpolate `undefined`, as in the
JavaScript template literal). -/
def attrRestoreAux (store : List (List Char)) : Nat → List Char → List Char
  | 0, cs => cs
  | fuel + 1, cs0 =>
    match cs0 with
    | [] => []
    | c :: cs =>
      match matchAttrRestoreAt (c :: cs) with
      | some (name, idx, rest) =>
        '<' :: name ++ store.getD idx "undefined".data ++ '>' :: attrRestoreAux store fuel rest
      | none => c :: attrRestoreAux store fuel cs

/-- Match `<pre>(\d+)<\/pre>` at the current position. -/
def matchPreRestoreAt (cs : List Char) : Option (Nat × List Char) :=
  if ("<pre>".data).isPrefixOf cs then
    let r := cs.drop 5
    let ds := r.takeWhile Char.isDigit
    if ds = [] then none
    else
      match r.dropWhile Char.isDigit with
      | '<' :: '/' :: 'p' :: 'r' :: 'e' :: '>' :: r2 => some (digitsToNat ds, r2)
      | _ => none
  else none

/-- `content.replace(new RegExp('^' + leadingSpaces, 'mg'), '')` for a
non-empty `leadingSpaces`: at the start of the string and after every
newline, one occurrence of the literal prefix is removed. -/
def stripIndentAux (ls : List Char) : Nat → Bool → List Char → List Char
  | 0, _, cs => cs
  | fuel + 1, atStart, cs =>
    if atStart && ls.isPrefixOf cs then stripIndentAux ls fuel false (cs.drop ls.length)
    else
      match cs with
      | c :: rest => c :: stripIndentAux ls fuel (c = '\n') rest
      | [] => []

/-- The per-block indentation strip applied when a pre placeholder is
restored; an empty `leadingSpaces` makes the regex `/^/mg`, a no-op. -/
def stripIndent (ls content : List Char) : List Char :=
  if ls = [] then content else stripIndentAux ls (content.length + 1) true content

/-- Fifth `compressHTML` pass: replace every `<pre>(\d+)<\/pre>` placeholder
with `<pre>${adjustedContent}</pre>`, where the stored content has the
stored leading indentation stripped from the start of every line. -/
def preRestoreAux (tags lws : List (List Char)) : Nat → List Char → List Char
  | 0, cs => cs
  | fuel + 1, cs0 =>
    match cs0 with
    | [] => []
    | c :: cs =>
      match matchPreRestoreAt (c :: cs) with
      | some (idx, rest) =>
        "<pre>".data ++
          stripIndent (lws.getD idx "undefined".data) (tags.getD idx "undefined".data) ++
          "</pre>".data ++ preRestoreAux tags lws fuel rest
      | none => c :: preRestoreAux tags lws fuel cs

/-- Match `<\/?tag[^>]*>` at the current position (used for `span`/`div`). -/
def matchStripTagAt (tagName : List Char) (cs : List Char) : Option (List Char) :=
  match cs with
  | '<' :: rest =>
    let r := match rest with
      | '/' :: r2 => r2
      | _ => rest
    if tagName.isPrefixOf r then
      match (r.drop tagName.length).dropWhile (fun c => c ≠ '>') with
      | '>' :: r3 => some r3
      | _ => none
    else none
  | _ => none

/-- `html.replace(/<\/?span[^>]*>/g, '')` (and likewise for `div`): delete
every opening or closing occurrence of the tag. -/
def stripTagAux (tagName : List Char) : Nat → List Char → List Char
  | 0, cs => cs
  | fuel + 1, cs0 =>
    match cs0 with
    | [] => []
    | c :: cs =>
      match matchStripTagAt tagName (c :: cs) with
      | some rest => stripTagAux tagName fuel rest
      | none => c :: stripTagAux tagName fuel cs

/-- `content.replace(/(\S)(<b>|<i>|<code>)/g, '$1 $2')`: inside `<p>`
content, insert a space between a non-whitespace character and an
immediately following literal `<b>`, `<i>` or `<code>`; scanning resumes
after the consumed tag. -/
def addSpaces : List Char → List Char
  | c :: '<' :: 'b' :: '>' :: rest =>
    if isJsWhitespace c then c :: addSpaces ('<' :: 'b' :: '>' :: rest)
    else c :: ' ' :: '<' :: 'b' :: '>' :: addSpaces rest
  | c :: '<' :: 'i' :: '>' :: rest =>
    if isJsWhitespace c then c :: addSpaces ('<' :: 'i' :: '>' :: rest)
    else c :: ' ' :: '<' :: 'i' :: '>' :: addSpaces rest
  | c :: '<' :: 'c' :: 'o' :: 'd' :: 'e' :: '>' :: rest =>
    if isJsWhitespace c then c :: addSpaces ('<' :: 'c' :: 'o' :: 'd' :: 'e' :: '>' :: rest)
    else c :: ' ' :: '<' :: 'c' :: 'o' :: 'd' :: 'e' :: '>' :: addSpaces rest
  | c :: cs => c :: addSpaces cs
  | [] => []

/-- Split at the first literal `</p>` (the lazy body of the `<p>`-content
regex). -/
def findPClose : List Char → Option (List Char × List Char)
  | '<' :: '/' :: 'p' :: '>' :: rest => some ([], rest)
  | c :: cs => (findPClose cs).map (fun p => (c :: p.1, p.2))
  | [] => none

/-- Final `compressHTML` pass, `html.replace(/<p>([\s\S]*?)<\/p>/g, ...)`:
rewrite the content of every literal (attribute-free) `<p>...</p>` region
with `addSpaces`. -/
def pPassAux : Nat → List Char → List Char
  | 0, cs => cs
  | fuel + 1, cs0 =>
    match cs0 with
    | [] => []
    | c :: cs =>
      if ("<p>".data).isPrefixOf (c :: cs) then
        match findPClose ((c :: cs).drop 3) with
        | some (content, rest) =>
          "<p>".data ++ addSpaces content ++ "</p>".data ++ pPassAux fuel rest
        | none => c :: pPassAux fuel cs
      else c :: pPassAux fuel cs

/-- The pre-extraction pass with adequate fuel. -/
def preExtractPass (cs : List Char) : List Char × List (List Char) × List (List Char) :=
  preExtractAux (cs.length + 1) cs [] []

/-- The attribute-extraction pass with adequate fuel. -/
def attrExtractPass (cs : List Char) : List Char × List (List Char) :=
  attrExtractAux (cs.length + 1) cs []

/-- The attribute-restoration pass with adequate fuel. -/
def attrRestorePass (store : List (List Char)) (cs : List Char) : List Char :=
  attrRestoreAux store (cs.length + 1) cs

/-- The pre-restoration pass with adequate fuel. -/
def preRestorePass (tags lws : List (List Char)) (cs : List Char) : List Char :=
  preRestoreAux tags lws (cs.length + 1) cs

/-- The `span`/`div` tag-strip pass with adequate fuel. -/
def stripTagPass (tagName : List Char) (cs : List Char) : List Char :=
  stripTagAux tagName (cs.length + 1) cs

/-- The `<p>`-content pass with adequate fuel. -/
def pPass (cs : List Char) : List Char :=
  pPassAux (cs.length + 1) cs

/-- `compressHTML(html)`: the five passes in source order — pre extraction,
attribute extraction, newline-run removal, attribute restoration, pre
restoration (with indentation strip) — followed by the `<br>`→newline,
`span`/`div`-strip and `<p>`-content rewriting passes. -/
def compressHTML (html : String) : String :=
  let p1 := preExtractPass html.data
  let p2 := attrExtractPass p1.1
  let h3 := removeNlRuns false p2.1
  let h4 := attrRestorePass p2.2 h3
  let h5 := preRestorePass p1.2.1 p1.2.2 h4
  let h6 := replaceBrsL h5
  let h7 := stripTagPass "span".data h6
  let h8 := stripTagPass "div".data h7
  String.mk (pPass h8)

/-- Modelled from the spec: `linearizeLists` (external collaborator contract,
§6) rewrites nested `<ul>`/`<ol>` structures into flat, `indent`-annotated
lists and leaves all other markup unchanged.  No claim in this development
exercises list nesting, so the model is the identity on its inputs (all of
which are list-free); the nested-list rewriting itself is not modelled. -/
def linearizeLists (html : String) : String := html

/-- Modelled from the spec: `blockBuilder` (external collaborator contract,
§6) finalizes the raw ordered block list, is idempotent and
order-preserving; nothing in its contract removes or rewrites a lone block,
so it is modelled as the identity. -/
def blockBuilder (blocks : List Elem) : List Elem := blocks

/-- A token of the modelled HTML tokenizer: a text run, an opening tag with
its parsed attributes, or a closing tag. -/
inductive Tok where
  | textTok (data : String)
  | openTag (name : String) (attribs : List (String × String))
  | closeTag (name : String)
deriving Repr

/-- Modelled from the spec: attribute parsing inside an opening tag for the
§6 HTML-to-tree parser contract — `name="value"` pairs and bare names,
double-quoted values only (the only form the inputs of this development
use).  Returns `none` on an unterminated tag. -/
def readAttrsAux : Nat → List Char → List (String × String) →
    Option (List (String × String) × List Char)
  | 0, _, _ => none
  | fuel + 1, cs, acc =>
    let cs2 := cs.dropWhile isJsWhitespace
    match cs2 with
    | '>' :: rest => some (acc, rest)
    | '/' :: rest => readAttrsAux fuel rest acc
    | [] => none
    | _ =>
      let aname := cs2.takeWhile
        (fun c => !isJsWhitespace c && c ≠ '=' && c ≠ '>' && c ≠ '/')
      if aname = [] then none
      else
        let r := (cs2.drop aname.length).dropWhile isJsWhitespace
        match r with
        | '=' :: r2 =>
          let r3 := r2.dropWhile isJsWhitespace
          match r3 with
          | '"' :: r4 =>
            let v := r4.takeWhile (fun c => c ≠ '"')
            match r4.dropWhile (fun c => c ≠ '"') with
            | '"' :: r5 => readAttrsAux fuel r5 (acc ++ [(String.mk aname, String.mk v)])
            | _ => none
          | _ =>
            let v := r3.takeWhile (fun c => !isJsWhitespace c && c ≠ '>')
            readAttrsAux fuel (r3.drop v.length) (acc ++ [(String.mk aname, String.mk v)])
        | _ => readAttrsAux fuel r (acc ++ [(String.mk aname, "")])

/-- Modelled from the spec: the tokenizer of the §6 HTML-to-tree parser
contract.  Produces text runs, opening tags (with attributes) and closing
tags; a `<` that does not begin a well-formed tag is treated as text. -/
def tokenize : Nat → List Char → List Tok
  | 0, _ => []
  | _ + 1, [] => []
  | fuel + 1, '<' :: '/' :: rest =>
    (match rest.dropWhile (fun c => c ≠ '>') with
     | '>' :: r2 => Tok.closeTag (String.mk (rest.takeWhile isWordChar)) :: tokenize fuel r2
     | _ => [Tok.textTok (String.mk ('<' :: '/' :: rest))])
  | fuel + 1, '<' :: rest =>
    let name := rest.takeWhile isWordChar
    if name = [] then Tok.textTok "<" :: tokenize fuel rest
    else
      match readAttrsAux (rest.length + 1) (rest.drop name.length) [] with
      | some (attrs, r2) => Tok.openTag (String.mk name) attrs :: tokenize fuel r2
      | none => [Tok.textTok (String.mk ('<' :: rest))]
  | fuel + 1, c :: cs =>
    let txt := (c :: cs).takeWhile (fun ch => ch ≠ '<')
    Tok.textTok (String.mk txt) :: tokenize fuel ((c :: cs).drop txt.length)

/-- HTML void elements: their opening tags never take children. -/
def isVoidTag (name : String) : Bool :=
  name = "area" || name = "base" || name = "br" || name = "col" ||
    name = "embed" || name = "hr" || name = "img" || name = "input" ||
    name = "link" || name = "meta" || name = "param" || name = "source" ||
    name = "track" || name = "wbr"

/-- A frame of the tree builder's open-element stack: an element whose
children are still being accumulated (in reverse). -/
structure Frame where
  name : String
  attribs : List (String × String)
  rchildren : List Node

/-- Close the top frame into a node. -/
def frameToNode (f : Frame) : Node := Node.tag f.name f.attribs f.rchildren.reverse

/-- Append a finished child node to the top frame. -/
def pushChild (n : Node) : List Frame → List Frame
  | f :: fs => { f with rchildren := n :: f.rchildren } :: fs
  | [] => []

/-- Append character data to the top frame, merging with an adjacent text
node (parsers expose contiguous character data as a single text node). -/
def pushText (d : String) : List Frame → List Frame
  | f :: fs =>
    (match f.rchildren with
     | Node.text d0 :: rest => { f with rchildren := Node.text (d0 ++ d) :: rest }
     | _ => { f with rchildren := Node.text d :: f.rchildren }) :: fs
  | [] => []

/-- Pop open frames until one named `name` is closed, folding each popped
element into its parent (only called when such a frame exists). -/
def popToTag (name : String) : Frame → List Frame → List Frame
  | f, [] => [f]
  | f, g :: fs =>
    let g2 := { g with rchildren := frameToNode f :: g.rchildren }
    if f.name = name then g2 :: fs
    else popToTag name g2 fs

/-- Whether some open frame has the given name. -/
def stackHasTag (name : String) : List Frame → Bool
  | [] => false
  | f :: fs => f.name = name || stackHasTag name fs

/-- Fold the remaining open frames at end of input (unclosed elements stay
as children of their ancestors). -/
def unwindGo : Frame → List Frame → List Node
  | f, [] => f.rchildren.reverse
  | f, g :: fs => unwindGo { g with rchildren := frameToNode f :: g.rchildren } fs

/-- Modelled from the spec: tree construction for the §6 HTML-to-tree parser
contract.  Opening tags push a frame (void elements become childless leaf
nodes), closing tags pop to the matching open frame (and are ignored when
none exists), text is appended to the innermost open element. -/
def buildDom : List Tok → List Frame → List Node
  | [], fs =>
    (match fs with
     | [] => []
     | f :: rest => unwindGo f rest)
  | t :: ts, fs =>
    match t with
    | Tok.textTok d => buildDom ts (pushText d fs)
    | Tok.openTag name attrs =>
      if isVoidTag name then buildDom ts (pushChild (Node.tag name attrs []) fs)
      else buildDom ts (⟨name, attrs, []⟩ :: fs)
    | Tok.closeTag name =>
      if stackHasTag name fs then
        (match fs with
         | f :: rest => buildDom ts (popToTag name f rest)
         | [] => buildDom ts fs)
      else buildDom ts fs

/-- Modelled from the spec: `parseDocument` — the external HTML-to-tree
parser (§6 contract: tag nodes with name, attribute map and ordered
children, text nodes with raw character data). -/
def parseDocument (html : String) : List Node :=
  buildDom (tokenize (html.data.length + 1) html.data) [⟨"#root", [], []⟩]

/-- Preorder (document-order) search for the first tag with the given name,
as `DomUtils.findAll(...)[0]` produces it. -/
def findTagF : Nat → String → List Node → Option Node
  | 0, _, _ => none
  | _ + 1, _, [] => none
  | fuel + 1, name, n :: rest =>
    match n with
    | Node.text _ => findTagF fuel name rest
    | Node.tag nm attribs children =>
      if nm = name then some (Node.tag nm attribs children)
      else
        match findTagF fuel name children with
        | some b => some b
        | none => findTagF fuel name rest

/-- `findDomElementsByTagName(dom.children, 'body')[0] || dom`: the children
of the first `<body>` element if one exists, the document roots otherwise. -/
def bodyOrRoot (dom : List Node) : List Node :=
  match findTagF (Node.sizeList dom + dom.length + 1) "body" dom with
  | some (Node.tag _ _ children) => children
  | _ => dom

/-- `/^(?!\n\s*$).*/.test(t)`: with no `m` flag the anchored match can only
start at position 0, so the test fails exactly when the string is a newline
followed only by whitespace (making the negative lookahead fail); `.*`
always matches otherwise. -/
def regexKeepTest (t : String) : Bool :=
  match t.data with
  | '\n' :: rest => !rest.all isJsWhitespace
  | _ => true

/-- The predicate of `parseHtml`'s filter over array-valued `parseNode`
results: `block.text && /^(?!\n\s*$).*/.test(block.text)`.  A text or link
element passes when its `text` is present, non-empty, and not a newline
followed only by whitespace; a header block's `text` is a (truthy) nested
object whose coercion `"[object Object]"` passes the regex; every other
shape has no `text` key (`undefined` is falsy) and is dropped. -/
def keepBlock : Elem → Bool
  | Elem.textEl t _ => !(t = "") && regexKeepTest t
  | Elem.linkEl _ (some t) _ => !(t = "") && regexKeepTest t
  | Elem.headerBlock _ => true
  | _ => false

/-- `parseHtml`'s `body.children.forEach` loop: single-object results are
pushed unfiltered; array results are filtered with `keepBlock`. -/
def parseBodyChildren : List Node → Except Unit (List Elem)
  | [] => Except.ok []
  | n :: rest =>
    match parseNode n with
    | Except.error e => Except.error e
    | Except.ok tmp =>
      match parseBodyChildren rest with
      | Except.error e => Except.error e
      | Except.ok tail =>
        match tmp with
        | PNResult.single e => Except.ok (e :: tail)
        | PNResult.list es => Except.ok (es.filter keepBlock ++ tail)

/-- `parseHtml(html)`: normalize, linearize lists, parse to a DOM, locate
the body (or fall back to the root), walk every top-level node, and hand the
raw block list to `blockBuilder`.  `Except.error` models an uncaught
JavaScript exception escaping the conversion. -/
def parseHtml (html : String) : Except Unit (List Elem) :=
  (parseBodyChildren (bodyOrRoot (parseDocument (linearizeLists (compressHTML html))))).map
    blockBuilder

/-- Pointwise ordering of style sets: every flag set in `s` is set in `t`
(the "flags only ever turn on" relation). -/
def styleLe (s t : Style) : Prop :=
  (s.bold = true → t.bold = true) ∧ (s.italic = true → t.italic = true) ∧
    (s.strike = true → t.strike = true) ∧ (s.code = true → t.code = true)

/-- The `style` key of an inline element, when present. -/
def elemStyle : Elem → Option Style
  | .textEl _ st => st
  | .linkEl _ _ st => st
  | _ => none

/-- Whether a string consists only of whitespace characters. -/
def wsOnlyStr (t : String) : Bool := t.data.all isJsWhitespace

/- ### Fuel irrelevance and unfolding lemmas for the tree walkers -/

theorem exMapJoin_congr {f g : Node → Except Unit (List Elem)} :
    ∀ l : List Node, (∀ c ∈ l, f c = g c) → exMapJoin f l = exMapJoin g l
  | [], _ => rfl
  | c :: cs, h => by
    simp only [exMapJoin]
    rw [h c (by simp), exMapJoin_congr cs (fun d hd => h d (by simp [hd]))]

theorem Node.size_pos (n : Node) : 1 ≤ n.size := by
  cases n <;> simp [Node.size]

theorem Node.size_le_sizeList : ∀ (c : Node) (l : List Node), c ∈ l → c.size ≤ Node.sizeList l
  | c, d :: ds, h => by
    simp only [Node.sizeList]
    rcases List.mem_cons.mp h with h1 | h2
    · subst h1; omega
    · have := Node.size_le_sizeList c ds h2; omega

theorem Node.size_tag (name : String) (attribs : List (String × String))
    (children : List Node) :
    (Node.tag name attribs children).size = Node.sizeList children + 1 := by
  simp [Node.size]; omega

theorem parseTextF_fuel (f1 : Nat) : ∀ (f2 : Nat) (n : Node) (st : Style),
    n.size ≤ f1 → n.size ≤ f2 → parseTextF f1 n st = parseTextF f2 n st := by
  induction f1 using Nat.strong_induction_on with
  | _ f1 ih =>
    intro f2 n st h1 h2
    have hp := Node.size_pos n
    match f1, f2 with
    | 0, _ => omega
    | _ + 1, 0 => omega
    | a + 1, b + 1 =>
      cases n with
      | text d => simp [parseTextF]
      | tag name attribs children =>
        have hsz := Node.size_tag name attribs children
        simp only [parseTextF]
        by_cases hn : name = "a"
        · simp [hn]
        · simp only [hn, if_false]
          apply exMapJoin_congr
          intro c hc
          have hcs := Node.size_le_sizeList c children hc
          exact ih a (by omega) b c _ (by omega) (by omega)

theorem parseText_eq_step : ∀ (n : Node) (st : Style), parseText n st = parseTextStep n st := by
  intro n st
  cases n with
  | text d => rfl
  | tag name attribs children =>
    have hsz := Node.size_tag name attribs children
    simp only [parseText, parseTextStep, hsz, parseTextF]
    by_cases hn : name = "a"
    · simp [hn]
    · simp only [hn, if_false]
      apply exMapJoin_congr
      intro c hc
      exact parseTextF_fuel (Node.sizeList children) c.size c _
        (Node.size_le_sizeList c children hc) (le_refl _)

theorem exFoldChildren_congr {f g : Node → Except Unit PNResult} (hasEls : Bool) :
    ∀ (l : List Node) (acc : List Elem), (∀ c ∈ l, f c = g c) →
      exFoldChildren f hasEls acc l = exFoldChildren g hasEls acc l
  | [], _, _ => rfl
  | c :: cs, acc, h => by
    simp only [exFoldChildren]
    rw [h c (by simp)]
    cases hgc : g c with
    | error e => rfl
    | ok r => exact exFoldChildren_congr hasEls cs _ (fun d hd => h d (by simp [hd]))

theorem parseNodeF_fuel (f1 : Nat) : ∀ (f2 : Nat) (n : Node),
    n.size ≤ f1 → n.size ≤ f2 → parseNodeF f1 n = parseNodeF f2 n := by
  induction f1 using Nat.strong_induction_on with
  | _ f1 ih =>
    intro f2 n h1 h2
    have hp := Node.size_pos n
    match f1, f2 with
    | 0, _ => omega
    | _ + 1, 0 => omega
    | a + 1, b + 1 =>
      cases n with
      | text d => simp [parseNodeF]
      | tag name attribs children =>
        have hsz := Node.size_tag name attribs children
        simp only [parseNodeF]
        by_cases hi : isInlineTag name = true
        · simp [hi]
        · simp only [hi, if_false]
          by_cases hh : isHeaderTag name = true
          · simp [hh]
          · simp only [hh, if_false]
            have : exFoldChildren (fun c => parseNodeF a c) (tagHasElements name) [] children =
                exFoldChildren (fun c => parseNodeF b c) (tagHasElements name) [] children := by
              apply exFoldChildren_congr
              intro c hc
              have hcs := Node.size_le_sizeList c children hc
              exact ih a (by omega) b c (by omega) (by omega)
            rw [this]

theorem parseNode_eq_step : ∀ n : Node, parseNode n = parseNodeStep n := by
  intro n
  cases n with
  | text d => rfl
  | tag name attribs children =>
    have hsz := Node.size_tag name attribs children
    simp only [parseNode, parseNodeStep, hsz, parseNodeF]
    by_cases hi : isInlineTag name = true
    · simp [hi]
    · simp only [hi, if_false]
      by_cases hh : isHeaderTag name = true
      · simp [hh]
      · simp only [hh, if_false]
        have : exFoldChildren (fun c => parseNodeF (Node.sizeList children) c)
            (tagHasElements name) [] children =
            exFoldChildren parseNode (tagHasElements name) [] children := by
          apply exFoldChildren_congr
          intro c hc
          exact parseNodeF_fuel (Node.sizeList children) c.size c
            (Node.size_le_sizeList c children hc) (le_refl _)
        rw [this]

theorem exFoldChildren_ok_of_all {f : Node → Except Unit PNResult} {hasEls : Bool} :
    ∀ (l : List Node) (acc : List Elem), (∀ c ∈ l, ∃ r, f c = Except.ok r) →
      ∃ out, exFoldChildren f hasEls acc l = Except.ok out
  | [], acc, _ => ⟨acc, rfl⟩
  | c :: cs, acc, h => by
    obtain ⟨r, hr⟩ := h c (by simp)
    simp only [exFoldChildren]
    rw [hr]
    exact exFoldChildren_ok_of_all cs _ (fun d hd => h d (by simp [hd]))

theorem exFoldChildren_error_of_mem {f : Node → Except Unit PNResult} {hasEls : Bool} :
    ∀ (l : List Node) (acc : List Elem), (∃ c ∈ l, f c = Except.error ()) →
      exFoldChildren f hasEls acc l = Except.error ()
  | [], _, h => by simp at h
  | c :: cs, acc, h => by
    simp only [exFoldChildren]
    cases hfc : f c with
    | error e => cases e; rfl
    | ok r =>
      obtain ⟨d, hd, hderr⟩ := h
      rcases List.mem_cons.mp hd with h1 | h2
      · subst h1; rw [hfc] at hderr; cases hderr
      · exact exFoldChildren_error_of_mem cs _ ⟨d, h2, hderr⟩

theorem styleLe_refl (s : Style) : styleLe s s := ⟨id, id, id, id⟩

theorem styleLe_trans {a b c : Style} (h1 : styleLe a b) (h2 : styleLe b c) : styleLe a c :=
  ⟨fun h => h2.1 (h1.1 h), fun h => h2.2.1 (h1.2.1 h),
   fun h => h2.2.2.1 (h1.2.2.1 h), fun h => h2.2.2.2 (h1.2.2.2 h)⟩

theorem styleLe_update (name : String) (st : Style) : styleLe st (updateStyleTag name st) := by
  unfold updateStyleTag
  split_ifs <;> simp [styleLe]

theorem jsTextClean_ws (d : String) : wsOnlyStr (jsTextClean d) = true → jsTextClean d = "" := by
  simp only [jsTextClean, wsOnlyStr]
  by_cases hc : (replaceBrsL d.data).all isJsWhitespace
  · intro _
    simp [hc]
  · have hd : (String.mk (replaceBrsL d.data)).data = replaceBrsL d.data := rfl
    simp only [hc, if_false, hd]
    intro h
    exact absurd h (by simp [hc])

theorem optStyle_eq_some {st s : Style} (h : optStyle st = some s) : s = st := by
  simp only [optStyle] at h
  split at h
  · injection h with h
    exact h.symm
  · cases h

theorem exMapJoin_mem {f : Node → Except Unit (List Elem)} :
    ∀ (l : List Node) (es : List Elem), exMapJoin f l = Except.ok es →
      ∀ e ∈ es, ∃ c ∈ l, ∃ es2, f c = Except.ok es2 ∧ e ∈ es2
  | [], es, h => by
    simp only [exMapJoin] at h
    injection h with h
    subst h
    intro e he
    simp at he
  | c :: cs, es, h => by
    simp only [exMapJoin] at h
    cases hfc : f c with
    | error e0 => rw [hfc] at h; simp at h
    | ok es1 =>
      rw [hfc] at h
      cases hmj : exMapJoin f cs with
      | error e0 => rw [hmj] at h; simp at h
      | ok rest =>
        rw [hmj] at h
        simp only at h
        injection h with h
        subst h
        intro e he
        rcases List.mem_append.mp he with h1 | h2
        · exact ⟨c, by simp, es1, hfc, h1⟩
        · obtain ⟨d, hd, es2, hfd, he2⟩ := exMapJoin_mem cs rest hmj e h2
          exact ⟨d, by simp [hd], es2, hfd, he2⟩

theorem parseTextF_output : ∀ (fuel : Nat) (n : Node) (st : Style) (es : List Elem),
    parseTextF fuel n st = Except.ok es → ∀ e ∈ es,
      e.isEmptyObj = false ∧
      (∀ t s', e = Elem.textEl t s' → wsOnlyStr t = true → t = "") ∧
      (∀ s, elemStyle e = some s → styleLe st s)
  | 0, _, _, _, h => Except.noConfusion h
  | _ + 1, Node.text d, st, es, h => by
    simp only [parseTextF] at h
    injection h with h
    subst h
    intro e he
    simp only [List.mem_singleton] at he
    subst he
    refine ⟨rfl, ?_, ?_⟩
    · intro t s' het hws
      injection het with ht hs
      subst ht
      exact jsTextClean_ws d hws
    · intro s hs
      simp only [elemStyle] at hs
      rw [optStyle_eq_some hs]
      exact styleLe_refl st
  | fuel + 1, Node.tag name attribs children, st, es, h => by
    simp only [parseTextF] at h
    by_cases hn : name = "a"
    · rw [if_pos hn] at h
      cases children with
      | nil => exact Except.noConfusion h
      | cons c rest =>
        injection h with h
        subst h
        intro e he
        simp only [List.mem_singleton] at he
        subst he
        refine ⟨rfl, ?_, ?_⟩
        · intro t s' het
          exact Elem.noConfusion het
        · intro s hs
          simp only [elemStyle] at hs
          rw [optStyle_eq_some hs]
          exact styleLe_update name st
    · rw [if_neg hn] at h
      intro e he
      obtain ⟨c, _, es2, hfc, he2⟩ := exMapJoin_mem children es h e he
      obtain ⟨h1, h2, h3⟩ := parseTextF_output fuel c (updateStyleTag name st) es2 hfc e he2
      exact ⟨h1, h2, fun s hs => styleLe_trans (styleLe_update name st) (h3 s hs)⟩

theorem regexKeepTest_of_head_ne (t : String) (h : t.data.head? ≠ some '\n') :
    regexKeepTest t = true := by
  rw [regexKeepTest.eq_def]
  split
  · rename_i rest heq
    exact absurd (by rw [heq]; rfl) h
  · rfl

/- ### The claims -/

/-- Claim C1, code bug: the spec's propagation policy says the conversion
never fails, but `parseHtml` on the well-formed input `<a href="u"></a>`
throws — `parseText` dereferences `node.children[0].type` on the anchor's
empty children array (a `TypeError`), which escapes `parseHtml`. -/
theorem claim_C1_empty_anchor_throws :
    parseHtml "<a href=\"u\"></a>" = Except.error () := by rfl

/-- Claim C3, counterexample: an unrecognized tag (`foo`) with a non-empty
child list does not become a generic section keeping the children's output;
`parseNode` returns the bare empty object (which is not a section block for
any `elements`). -/
theorem claim_C3_counterexample :
    parseNode (Node.tag "foo" [] [Node.tag "p" [] [Node.text "x"]]) =
      Except.ok (PNResult.single Elem.emptyObj) ∧
    (∀ els : List Elem, Elem.emptyObj ≠ Elem.sectionBlock els) :=
  ⟨by rfl, fun _ h => Elem.noConfusion h⟩

/-- Claim C3, amended: for an unrecognized tag name, `parseNode` visits every
child in order (so a child's exception still propagates) but discards their
output, returning the single empty object whether or not children exist —
it never builds a section for unrecognized tags. -/
theorem claim_C3_amended (name : String) (attribs : List (String × String))
    (children : List Node) (h : recognizedTag name = false) :
    ((∀ c ∈ children, ∃ r, parseNode c = Except.ok r) →
      parseNode (Node.tag name attribs children) = Except.ok (PNResult.single Elem.emptyObj)) ∧
    ((∃ c ∈ children, parseNode c = Except.error ()) →
      parseNode (Node.tag name attribs children) = Except.error ()) := by
  simp only [recognizedTag, Bool.or_eq_false_iff, decide_eq_false_iff_not] at h
  obtain ⟨⟨⟨hels, hinl⟩, hhdr⟩, himg⟩ := h
  have hblk : mkTagBlock name attribs = fun _ => Elem.emptyObj := by
    have h2 := hels
    simp only [tagHasElements, Bool.or_eq_false_iff, decide_eq_false_iff_not] at h2
    obtain ⟨⟨⟨⟨⟨hul, hol⟩, hli⟩, hpre⟩, hbq⟩, hp⟩ := h2
    funext els
    simp [mkTagBlock, hul, hol, hli, hpre, hbq, hp, himg]
  rw [parseNode_eq_step]
  simp only [parseNodeStep, hinl, if_false, hhdr, hblk]
  constructor
  · intro hok
    obtain ⟨out, hout⟩ := exFoldChildren_ok_of_all children [] hok
    rw [hout]
    rfl
  · intro herr
    rw [exFoldChildren_error_of_mem children [] herr]
    rfl

/-- Witness for the amended claim C3 at a concrete input: `<foo>` with one
`<p>x</p>` child parses to the single empty object. -/
theorem claim_C3_amended_witness :
    parseNode (Node.tag "foo" [] [Node.tag "p" [] [Node.text "x"]]) =
      Except.ok (PNResult.single Elem.emptyObj) :=
  (claim_C3_amended "foo" [] [Node.tag "p" [] [Node.text "x"]] (by decide)).1
    (by intro c hc; simp at hc; subst hc; exact ⟨_, by rfl⟩)

/-- Claim C5, confirmed: the two nesting orders of `<b>` and `<i>` around a
text leaf produce identical results, and the leaf's style object carries
both `bold:true` and `italic:true`. -/
theorem claim_C5_style_nesting_commutes (d : String) :
    parseText (Node.tag "b" [] [Node.tag "i" [] [Node.text d]]) emptyStyle =
      parseText (Node.tag "i" [] [Node.tag "b" [] [Node.text d]]) emptyStyle ∧
    parseText (Node.tag "b" [] [Node.tag "i" [] [Node.text d]]) emptyStyle =
      Except.ok [Elem.textEl (jsTextClean d) (some ⟨true, true, false, false⟩)] :=
  ⟨rfl, rfl⟩

/-- Claim C7, counterexample: conversion of the normalized form of
`a<br>b` differs from conversion of the original — normalization turns
`<br>` into a newline, and a second normalization pass deletes that
newline, so the two runs produce different text. -/
theorem claim_C7_counterexample :
    parseHtml (compressHTML "a<br>b") = Except.ok [Elem.textEl "ab" none] ∧
    parseHtml "a<br>b" = Except.ok [Elem.textEl "a\nb" none] ∧
    ("ab" : String) ≠ "a\nb" :=
  ⟨by rfl, by rfl, by decide⟩

/-- Claim C7, amended: re-running the conversion on the normalized form is
byte-identical to a single pass whenever `compressHTML` is idempotent on the
given input (first conjunct) — a sufficient condition, not a necessary one:
on `<br>` the two normalizations differ (`"\n"` vs `""`) yet both
conversions produce the same empty output, since the lone newline text is
blanked and filtered (second and third conjuncts). -/
theorem claim_C7_amended :
    (∀ html : String, compressHTML (compressHTML html) = compressHTML html →
      parseHtml (compressHTML html) = parseHtml html) ∧
    parseHtml (compressHTML "<br>") = parseHtml "<br>" ∧
    ¬compressHTML (compressHTML "<br>") = compressHTML "<br>" := by
  refine ⟨?_, by rfl, by decide⟩
  intro html h
  simp only [parseHtml, h]

/-- Witness for the amended claim C7: `compressHTML` is idempotent on
`<p>x</p>`, so the double conversion agrees there. -/
theorem claim_C7_amended_witness :
    parseHtml (compressHTML "<p>x</p>") = parseHtml "<p>x</p>" :=
  claim_C7_amended.1 "<p>x</p>" (by rfl)

/-- Claim C9, code bug: the anchor contract — exactly one `link` element
with `url` from `href`, the accumulated style attached only when non-empty,
`text` from the first child only when it is a text node, and no recursion
into descendants — holds whenever the anchor has at least one child
(second conjunct: the result depends only on the first child's text-ness,
never on deeper structure), and the spec's own example converts as stated
(third conjunct); but a childless anchor makes `parseText` throw instead of
producing a link with `text` unset (first conjunct). -/
theorem claim_C9_anchor_contract :
    parseText (Node.tag "a" [("href", "u")] []) emptyStyle = Except.error () ∧
    (∀ (attribs : List (String × String)) (st : Style) (c : Node) (rest : List Node),
      parseText (Node.tag "a" attribs (c :: rest)) st =
        Except.ok [Elem.linkEl (getAttr attribs "href") (firstTextData c) (optStyle st)]) ∧
    parseHtml "<a href=\"https://x.test\">link text</a>" =
      Except.ok [Elem.linkEl (some "https://x.test") (some "link text") none] := by
  refine ⟨by rfl, ?_, by rfl⟩
  intro attribs st c rest
  rw [parseText_eq_step]
  simp [parseTextStep, updateStyleTag]

/-- Claim C10, confirmed: in the `<p>`-content pass a separating space is
inserted only before the literal attribute-less `<b>`, `<i>` and `<code>`
(first three conjuncts and the two general laws at the end); `<strong>`,
`<em>`, `<s>`, an anchor, and a `<b>` carrying attributes receive no
space (middle conjuncts). -/
theorem claim_C10_p_space_insertion :
    compressHTML "<p>a<b>x</b></p>" = "<p>a <b>x</b></p>" ∧
    compressHTML "<p>a<i>x</i></p>" = "<p>a <i>x</i></p>" ∧
    compressHTML "<p>a<code>x</code></p>" = "<p>a <code>x</code></p>" ∧
    compressHTML "<p>a<strong>x</strong></p>" = "<p>a<strong>x</strong></p>" ∧
    compressHTML "<p>a<em>x</em></p>" = "<p>a<em>x</em></p>" ∧
    compressHTML "<p>a<s>x</s></p>" = "<p>a<s>x</s></p>" ∧
    compressHTML "<p>a<a href=\"u\">x</a></p>" = "<p>a<a href=\"u\">x</a></p>" ∧
    compressHTML "<p>a<b c=\"d\">x</b></p>" = "<p>a<b c=\"d\">x</b></p>" ∧
    compressHTML "<p>a <b>x</b></p>" = "<p>a <b>x</b></p>" ∧
    (∀ (c : Char) (rest : List Char), isJsWhitespace c = false →
      addSpaces (c :: '<' :: 'b' :: '>' :: rest) =
        c :: ' ' :: '<' :: 'b' :: '>' :: addSpaces rest) ∧
    (∀ (c : Char) (rest : List Char), isJsWhitespace c = true →
      addSpaces (c :: '<' :: 'b' :: '>' :: rest) =
        c :: addSpaces ('<' :: 'b' :: '>' :: rest)) := by
  refine ⟨by rfl, by rfl, by rfl, by rfl, by rfl, by rfl, by rfl, by rfl, by rfl, ?_, ?_⟩
  · intro c rest h
    simp [addSpaces, h]
  · intro c rest h
    simp [addSpaces, h]

/-- Witness for claim C10's general laws at concrete inputs: a space is
inserted after `a` and not after an existing space. -/
theorem claim_C10_witness :
    addSpaces ('a' :: '<' :: 'b' :: '>' :: []) = 'a' :: ' ' :: '<' :: 'b' :: '>' :: [] ∧
    addSpaces (' ' :: '<' :: 'b' :: '>' :: []) = ' ' :: '<' :: 'b' :: '>' :: [] :=
  ⟨by rw [(claim_C10_p_space_insertion).2.2.2.2.2.2.2.2.2.1 'a' [] (by decide)]; rfl,
   by rw [(claim_C10_p_space_insertion).2.2.2.2.2.2.2.2.2.2 ' ' [] (by decide)]; rfl⟩

/-- Claim C4, confirmed: (1) for every tag name a descent step only turns
style flags on, never off; (2) a non-anchor tag's traversal is exactly the
in-order concatenation of independent recursive calls that all receive the
same fresh copy of the updated style value, so sibling branches cannot
observe each other's accumulated flags; (3) every style attached anywhere in
a `parseText` result extends the inherited style of the call. -/
theorem claim_C4_style_invariants :
    (∀ (name : String) (st : Style), styleLe st (updateStyleTag name st)) ∧
    (∀ (name : String) (attribs : List (String × String)) (children : List Node) (st : Style),
      ¬name = "a" →
      parseText (Node.tag name attribs children) st =
        exMapJoin (fun c => parseText c (updateStyleTag name st)) children) ∧
    (∀ (n : Node) (st : Style) (es : List Elem), parseText n st = Except.ok es →
      ∀ e ∈ es, ∀ s, elemStyle e = some s → styleLe st s) := by
  refine ⟨styleLe_update, ?_, ?_⟩
  · intro name attribs children st hn
    rw [parseText_eq_step]
    simp only [parseTextStep, if_neg hn]
  · intro n st es h e he s hs
    exact (parseTextF_output n.size n st es h e he).2.2 s hs

/-- Witness for claim C4 at concrete inputs: descending through `<b>` turns
`bold` on, the sibling decomposition holds for a concrete `<b>` node, and a
style produced under an inherited `bold` flag still carries that flag. -/
theorem claim_C4_witness :
    styleLe emptyStyle (updateStyleTag "b" emptyStyle) ∧
    parseText (Node.tag "b" [] [Node.text "x"]) emptyStyle =
      exMapJoin (fun c => parseText c (updateStyleTag "b" emptyStyle)) [Node.text "x"] ∧
    styleLe ⟨true, false, false, false⟩ ⟨true, true, false, false⟩ :=
  ⟨claim_C4_style_invariants.1 "b" emptyStyle,
   claim_C4_style_invariants.2.1 "b" [] [Node.text "x"] emptyStyle (by decide),
   claim_C4_style_invariants.2.2 (Node.tag "i" [] [Node.text "x"]) ⟨true, false, false, false⟩
     [Elem.textEl "x" (some ⟨true, true, false, false⟩)] (by rfl)
     (Elem.textEl "x" (some ⟨true, true, false, false⟩)) (by simp)
     ⟨true, true, false, false⟩ (by rfl)⟩

/-- Claim C8, confirmed: for every heading tag, a first child that is a text
node with non-empty data yields the fully populated header block; a missing
first child, a tag first child, or empty data yields the empty object; and
end-to-end `<hN>Title</hN>` converts to the single header block for all six
levels. -/
theorem claim_C8_header_contract :
    (∀ (name : String) (attribs : List (String × String)) (d : String) (rest : List Node),
      isHeaderTag name = true → ¬d = "" →
      parseNode (Node.tag name attribs (Node.text d :: rest)) =
        Except.ok (PNResult.single (Elem.headerBlock d))) ∧
    (∀ (name : String) (attribs : List (String × String)) (children : List Node),
      isHeaderTag name = true →
      (children = [] ∨ (∃ nm ats cs rest, children = Node.tag nm ats cs :: rest) ∨
        (∃ rest, children = Node.text "" :: rest)) →
      parseNode (Node.tag name attribs children) = Except.ok (PNResult.single Elem.emptyObj)) ∧
    parseHtml "<h1>Title</h1>" = Except.ok [Elem.headerBlock "Title"] ∧
    parseHtml "<h2>Title</h2>" = Except.ok [Elem.headerBlock "Title"] ∧
    parseHtml "<h3>Title</h3>" = Except.ok [Elem.headerBlock "Title"] ∧
    parseHtml "<h4>Title</h4>" = Except.ok [Elem.headerBlock "Title"] ∧
    parseHtml "<h5>Title</h5>" = Except.ok [Elem.headerBlock "Title"] ∧
    parseHtml "<h6>Title</h6>" = Except.ok [Elem.headerBlock "Title"] := by
  refine ⟨?_, ?_, by rfl, by rfl, by rfl, by rfl, by rfl, by rfl⟩
  · intro name attribs d rest hh hd
    have hinl : isInlineTag name = false := by
      simp only [isHeaderTag, Bool.or_eq_true, decide_eq_true_eq] at hh
      rcases hh with ((((h | h) | h) | h) | h) | h <;> subst h <;> decide
    rw [parseNode_eq_step]
    simp [parseNodeStep, hinl, hh, parseHeader, hd]
  · intro name attribs children hh hcases
    have hinl : isInlineTag name = false := by
      simp only [isHeaderTag, Bool.or_eq_true, decide_eq_true_eq] at hh
      rcases hh with ((((h | h) | h) | h) | h) | h <;> subst h <;> decide
    rw [parseNode_eq_step]
    rcases hcases with h | ⟨nm, ats, cs, rest, h⟩ | ⟨rest, h⟩ <;> subst h <;>
      simp [parseNodeStep, hinl, hh, parseHeader]

/-- Witness for claim C8 at a concrete input: `<h2>` with the text child
`Title` parses to the header block, and `<h2>` with no children parses to
the empty object. -/
theorem claim_C8_witness :
    parseNode (Node.tag "h2" [] [Node.text "Title"]) =
      Except.ok (PNResult.single (Elem.headerBlock "Title")) ∧
    parseNode (Node.tag "h2" [] []) = Except.ok (PNResult.single Elem.emptyObj) :=
  ⟨claim_C8_header_contract.1 "h2" [] "Title" [] (by decide) (by decide),
   claim_C8_header_contract.2.1 "h2" [] [] (by decide) (Or.inl rfl)⟩

/-- Claim C2, counterexample: the final sequence can contain an element with
non-empty, whitespace-only text that came from a list-valued parse result
(a link whose text is a single space survives the filter), and it can
contain an empty object (a single-object header result is pushed
unfiltered), so neither half of the claimed filtering property holds. -/
theorem claim_C2_counterexample :
    parseHtml "<a href=\"u\"> </a>" = Except.ok [Elem.linkEl (some "u") (some " ") none] ∧
    wsOnlyStr " " = true ∧ ¬(" " : String) = "" ∧
    parseHtml "<h1></h1>" = Except.ok [Elem.emptyObj] :=
  ⟨by rfl, by decide, by decide, by rfl⟩

/-- Claim C2, amended: list-valued `parseText` results never contain an
empty object (1); a text element that survives the final filter has
non-empty, non-whitespace-only text (2) — but a link element whose text is
non-empty and does not start with a newline survives even when that text is
whitespace-only (3); and the filter is applied only to list-valued per-node
results: a single-object result is pushed into the final sequence unfiltered
(4), while a list result is pushed as its `keepBlock`-filtered form (5). -/
theorem claim_C2_amended :
    (∀ (n : Node) (st : Style) (es : List Elem), parseText n st = Except.ok es →
      ∀ e ∈ es, e.isEmptyObj = false) ∧
    (∀ (n : Node) (st : Style) (es : List Elem), parseText n st = Except.ok es →
      ∀ (t : String) (s' : Option Style), Elem.textEl t s' ∈ es.filter keepBlock →
        ¬t = "" ∧ wsOnlyStr t = false) ∧
    (∀ (url : Option String) (t : String) (s' : Option Style),
      ¬t = "" → t.data.head? ≠ some '\n' →
      keepBlock (Elem.linkEl url (some t) s') = true) ∧
    (∀ (n : Node) (rest : List Node) (e : Elem) (tail : List Elem),
      parseNode n = Except.ok (PNResult.single e) → parseBodyChildren rest = Except.ok tail →
      parseBodyChildren (n :: rest) = Except.ok (e :: tail)) ∧
    (∀ (n : Node) (rest : List Node) (es : List Elem) (tail : List Elem),
      parseNode n = Except.ok (PNResult.list es) → parseBodyChildren rest = Except.ok tail →
      parseBodyChildren (n :: rest) = Except.ok (es.filter keepBlock ++ tail)) := by
  refine ⟨?_, ?_, ?_, ?_, ?_⟩
  · intro n st es h e he
    exact (parseTextF_output n.size n st es h e he).1
  · intro n st es h t s' hmem
    obtain ⟨hin, hkeep⟩ := List.mem_filter.mp hmem
    simp only [keepBlock, Bool.and_eq_true, Bool.not_eq_true', decide_eq_false_iff_not] at hkeep
    refine ⟨hkeep.1, ?_⟩
    by_cases hw : wsOnlyStr t = true
    · exact absurd ((parseTextF_output n.size n st es h _ hin).2.1 t s' rfl hw) hkeep.1
    · exact Bool.not_eq_true _ |>.mp hw
  · intro url t s' ht hh
    simp only [keepBlock, Bool.and_eq_true]
    exact ⟨by simp [ht], regexKeepTest_of_head_ne t hh⟩
  · intro n rest e tail h1 h2
    simp only [parseBodyChildren, h1, h2]
  · intro n rest es tail h1 h2
    simp only [parseBodyChildren, h1, h2]

/-- Witness for the amended claim C2 at concrete inputs: the space-only link
text survives the filter, a single-object empty header result is pushed
unfiltered, and a surviving text element is non-empty and not
whitespace-only. -/
theorem claim_C2_amended_witness :
    keepBlock (Elem.linkEl (some "u") (some " ") none) = true ∧
    parseBodyChildren [Node.tag "h1" [] []] = Except.ok [Elem.emptyObj] ∧
    (¬("x" : String) = "" ∧ wsOnlyStr "x" = false) :=
  ⟨claim_C2_amended.2.2.1 (some "u") " " none (by decide) (by decide),
   claim_C2_amended.2.2.2.1 (Node.tag "h1" [] []) [] Elem.emptyObj [] (by rfl) (by rfl),
   claim_C2_amended.2.1 (Node.text "x") emptyStyle [Elem.textEl "x" none] (by rfl) "x" none
     (by show Elem.textEl "x" none ∈ [Elem.textEl "x" none]; exact List.mem_singleton.mpr rfl)⟩



theorem takeWhile_append_all {p : Char → Bool} :
    ∀ (l1 l2 : List Char), l1.all p = true → (l1 ++ l2).takeWhile p = l1 ++ l2.takeWhile p
  | [], l2, _ => by simp
  | c :: cs, l2, h => by
    simp only [List.all_cons, Bool.and_eq_true] at h
    simp only [List.cons_append, List.takeWhile_cons, h.1, if_true]
    rw [takeWhile_append_all cs l2 h.2]

theorem dropWhile_append_all {p : Char → Bool} :
    ∀ (l1 l2 : List Char), l1.all p = true → (l1 ++ l2).dropWhile p = l2.dropWhile p
  | [], l2, _ => by simp
  | c :: cs, l2, h => by
    simp only [List.all_cons, Bool.and_eq_true] at h
    simp only [List.cons_append, List.dropWhile_cons, h.1, if_true]
    exact dropWhile_append_all cs l2 h.2

theorem isPrefixOf_append_self : ∀ (l t : List Char), l.isPrefixOf (l ++ t) = true
  | [], t => by cases t <;> rfl
  | c :: cs, t => by simp [List.isPrefixOf, isPrefixOf_append_self cs t]

theorem findPreClose_cons_ne (c : Char) (h : c ≠ '<') (cs : List Char) :
    findPreClose (c :: cs) = (findPreClose cs).map (fun p => (c :: p.1, p.2)) := by
  rw [findPreClose.eq_def]
  split
  all_goals rename_i heq
  all_goals first
    | exact List.noConfusion heq
    | (injection heq with h1 h2
       first
        | exact absurd h1 h
        | rw [h1, h2])

theorem findPreClose_append (content rest : List Char) (h : ∀ c ∈ content, c ≠ '<') :
    findPreClose (content ++ '<' :: '/' :: 'p' :: 'r' :: 'e' :: '>' :: rest) =
      some (content, rest) := by
  induction content with
  | nil => rfl
  | cons c cs ih =>
    rw [List.cons_append, findPreClose_cons_ne c (h c (by simp)) _,
      ih (fun d hd => h d (by simp [hd]))]
    rfl

theorem matchPreAt_shape (ws content : List Char) (hws : ws.all isSpaceTab = true)
    (h : ∀ c ∈ content, c ≠ '<') :
    matchPreAt (ws ++ ("<pre>".data ++ (content ++ "</pre>".data))) = some (ws, content, []) := by
  have htake : (ws ++ ("<pre>".data ++ (content ++ "</pre>".data))).takeWhile isSpaceTab = ws := by
    rw [takeWhile_append_all ws _ hws,
      show ("<pre>".data ++ (content ++ "</pre>".data)).takeWhile isSpaceTab = [] from rfl,
      List.append_nil]
  have hdrop : (ws ++ ("<pre>".data ++ (content ++ "</pre>".data))).dropWhile isSpaceTab =
      "<pre>".data ++ (content ++ "</pre>".data) := by
    rw [dropWhile_append_all ws _ hws]
    rfl
  simp only [matchPreAt, htake, hdrop, isPrefixOf_append_self, if_true]
  rw [show ("<pre>".data ++ (content ++ "</pre>".data)).drop 5 = content ++ "</pre>".data from rfl]
  rw [show ("</pre>".data : List Char) = '<' :: '/' :: 'p' :: 'r' :: 'e' :: '>' :: [] from rfl,
    findPreClose_append content [] h]



theorem preExtractAux_match (fuel : Nat) (c : Char) (cs : List Char)
    (tags lws : List (List Char)) (ls content : List Char)
    (hm : matchPreAt (c :: cs) = some (ls, content, [])) :
    preExtractAux (fuel + 1) (c :: cs) tags lws =
      (placeholderPre tags.length, tags ++ [stripLeadingNewline content], lws ++ [ls]) := by
  simp only [preExtractAux, hm]
  cases fuel <;> simp [preExtractAux]

theorem preExtractPass_shape (ws content : List Char) (hws : ws.all isSpaceTab = true)
    (h : ∀ c ∈ content, c ≠ '<') :
    preExtractPass (ws ++ ("<pre>".data ++ (content ++ "</pre>".data))) =
      ("<pre>0</pre>".data, [stripLeadingNewline content], [ws]) := by
  have hm := matchPreAt_shape ws content hws h
  cases ws with
  | nil =>
    simp only [List.nil_append] at hm ⊢
    rw [show ("<pre>".data ++ (content ++ "</pre>".data)) =
      '<' :: ('p' :: 'r' :: 'e' :: '>' :: (content ++ "</pre>".data)) from rfl] at hm ⊢
    unfold preExtractPass
    rw [preExtractAux_match _ _ _ _ _ _ _ hm]
    rfl
  | cons w ws' =>
    rw [show ((w :: ws') ++ ("<pre>".data ++ (content ++ "</pre>".data))) =
      w :: (ws' ++ ("<pre>".data ++ (content ++ "</pre>".data))) from rfl] at hm ⊢
    unfold preExtractPass
    rw [preExtractAux_match _ _ _ _ _ _ _ hm]
    rfl

theorem attrExtract_mid :
    attrExtractPass ['<', 'p', 'r', 'e', '>', '0', '<', '/', 'p', 'r', 'e', '>'] = (['<', 'p', 'r', 'e', ' ', 'd', 'a', 't', 'a', '-', 't', 'a', 'g', '-', 'a', 't', 't', 'r', '=', '\"', '0', '\"', '>', '0', '<', '/', 'p', 'r', 'e', '>'], [[]]) := by
  rfl

theorem removeNl_mid :
    removeNlRuns false ['<', 'p', 'r', 'e', ' ', 'd', 'a', 't', 'a', '-', 't', 'a', 'g', '-', 'a', 't', 't', 'r', '=', '\"', '0', '\"', '>', '0', '<', '/', 'p', 'r', 'e', '>'] = ['<', 'p', 'r', 'e', ' ', 'd', 'a', 't', 'a', '-', 't', 'a', 'g', '-', 'a', 't', 't', 'r', '=', '\"', '0', '\"', '>', '0', '<', '/', 'p', 'r', 'e', '>'] := by
  rfl

theorem attrRestore_mid :
    attrRestorePass [[]] ['<', 'p', 'r', 'e', ' ', 'd', 'a', 't', 'a', '-', 't', 'a', 'g', '-', 'a', 't', 't', 'r', '=', '\"', '0', '\"', '>', '0', '<', '/', 'p', 'r', 'e', '>'] = ['<', 'p', 'r', 'e', '>', '0', '<', '/', 'p', 'r', 'e', '>'] := by
  rfl

theorem preRestore_mid (t0 w0 : List Char) :
    preRestorePass [t0] [w0] ['<', 'p', 'r', 'e', '>', '0', '<', '/', 'p', 'r', 'e', '>'] =
      ['<', 'p', 'r', 'e', '>'] ++ stripIndent w0 t0 ++ ['<', '/', 'p', 'r', 'e', '>'] := by
  have h : preRestorePass [t0] [w0] ['<', 'p', 'r', 'e', '>', '0', '<', '/', 'p', 'r', 'e', '>'] =
      ['<', 'p', 'r', 'e', '>'] ++ stripIndent w0 t0 ++ ['<', '/', 'p', 'r', 'e', '>'] ++ preRestoreAux [t0] [w0] 12 [] := rfl
  rw [h, show preRestoreAux [t0] [w0] 12 [] = [] from rfl, List.append_nil]


theorem stripLeadingNewline_no_lt (content : List Char) (h : ∀ c ∈ content, c ≠ '<') :
    ∀ c ∈ stripLeadingNewline content, c ≠ '<' := by
  cases content with
  | nil => simp [stripLeadingNewline]
  | cons c cs =>
    simp only [stripLeadingNewline]
    split
    · exact fun d hd => h d (by simp [hd])
    · exact h

theorem stripIndentAux_no_lt : ∀ (fuel : Nat) (ls : List Char) (atStart : Bool) (cs : List Char),
    (∀ c ∈ cs, c ≠ '<') → ∀ c ∈ stripIndentAux ls fuel atStart cs, c ≠ '<'
  | 0, ls, atStart, cs, h => h
  | fuel + 1, ls, atStart, cs, h => by
    simp only [stripIndentAux]
    split
    · exact stripIndentAux_no_lt fuel ls false (cs.drop ls.length)
        (fun c hc => h c (List.drop_subset _ _ hc))
    · match cs, h with
      | [], h => simp
      | c :: rest, h =>
        intro d hd
        rcases List.mem_cons.mp hd with h1 | h2
        · exact h1 ▸ h c (by simp)
        · exact stripIndentAux_no_lt fuel ls (c = '\n') rest (fun e he => h e (by simp [he])) d h2

theorem stripIndent_no_lt (ls content : List Char) (h : ∀ c ∈ content, c ≠ '<') :
    ∀ c ∈ stripIndent ls content, c ≠ '<' := by
  unfold stripIndent
  split
  · exact h
  · exact stripIndentAux_no_lt (content.length + 1) ls true content h

theorem replaceBrsL_cons_ne (c : Char) (h : c ≠ '<') (cs : List Char) :
    replaceBrsL (c :: cs) = c :: replaceBrsL cs := by
  rw [replaceBrsL.eq_def]
  split
  all_goals rename_i heq
  all_goals first
    | exact List.noConfusion heq
    | (injection heq with h1 h2
       first
        | exact absurd h1 h
        | rw [h1, h2])

theorem replaceBrsL_append_no_lt (X ys : List Char) (h : ∀ c ∈ X, c ≠ '<') :
    replaceBrsL (X ++ ys) = X ++ replaceBrsL ys := by
  induction X with
  | nil => rfl
  | cons c cs ih =>
    simp only [List.cons_append]
    rw [replaceBrsL_cons_ne c (h c (by simp)) _, ih (fun d hd => h d (by simp [hd]))]

theorem replaceBrsL_shape (X : List Char) (h : ∀ c ∈ X, c ≠ '<') :
    replaceBrsL (['<', 'p', 'r', 'e', '>'] ++ X ++ ['<', '/', 'p', 'r', 'e', '>']) = ['<', 'p', 'r', 'e', '>'] ++ X ++ ['<', '/', 'p', 'r', 'e', '>'] := by
  have h1 : replaceBrsL (['<', 'p', 'r', 'e', '>'] ++ X ++ ['<', '/', 'p', 'r', 'e', '>']) =
      '<' :: 'p' :: 'r' :: 'e' :: '>' :: replaceBrsL (X ++ ['<', '/', 'p', 'r', 'e', '>']) := rfl
  rw [h1, replaceBrsL_append_no_lt X ['<', '/', 'p', 'r', 'e', '>'] h,
    show replaceBrsL ['<', '/', 'p', 'r', 'e', '>'] = ['<', '/', 'p', 'r', 'e', '>'] from rfl]
  rfl


theorem matchStripTagAt_cons_ne (t : List Char) (c : Char) (h : c ≠ '<') (cs : List Char) :
    matchStripTagAt t (c :: cs) = none := by
  rw [matchStripTagAt.eq_def]
  split
  all_goals rename_i heq
  · injection heq with h1 h2
    exact absurd h1 h
  · rfl

theorem stripTagPass_cons_skip (t : List Char) (c : Char) (cs : List Char)
    (h : matchStripTagAt t (c :: cs) = none) :
    stripTagPass t (c :: cs) = c :: stripTagPass t cs := by
  unfold stripTagPass
  rw [show (c :: cs).length + 1 = (cs.length + 1) + 1 from rfl]
  simp only [stripTagAux, h]

theorem stripTagPass_append_no_lt (t X ys : List Char) (h : ∀ c ∈ X, c ≠ '<') :
    stripTagPass t (X ++ ys) = X ++ stripTagPass t ys := by
  induction X with
  | nil => rfl
  | cons c cs ih =>
    simp only [List.cons_append]
    rw [stripTagPass_cons_skip t c _ (matchStripTagAt_cons_ne t c (h c (by simp)) _),
      ih (fun d hd => h d (by simp [hd]))]

theorem stripTagPass_shape (t : List Char) (X : List Char) (h : ∀ c ∈ X, c ≠ '<')
    (hopen : matchStripTagAt t ('<' :: ('p' :: 'r' :: 'e' :: '>' :: (X ++ ['<', '/', 'p', 'r', 'e', '>']))) = none)
    (hclose : matchStripTagAt t ('<' :: ('/' :: 'p' :: 'r' :: 'e' :: '>' :: [])) = none) :
    stripTagPass t (['<', 'p', 'r', 'e', '>'] ++ X ++ ['<', '/', 'p', 'r', 'e', '>']) = ['<', 'p', 'r', 'e', '>'] ++ X ++ ['<', '/', 'p', 'r', 'e', '>'] := by
  have e1 : ['<', 'p', 'r', 'e', '>'] ++ X ++ ['<', '/', 'p', 'r', 'e', '>'] =
      '<' :: ('p' :: 'r' :: 'e' :: '>' :: (X ++ ['<', '/', 'p', 'r', 'e', '>'])) := rfl
  rw [e1]
  rw [stripTagPass_cons_skip t '<' _ hopen]
  rw [stripTagPass_cons_skip t 'p' _ (matchStripTagAt_cons_ne t 'p' (by decide) _)]
  rw [stripTagPass_cons_skip t 'r' _ (matchStripTagAt_cons_ne t 'r' (by decide) _)]
  rw [stripTagPass_cons_skip t 'e' _ (matchStripTagAt_cons_ne t 'e' (by decide) _)]
  rw [stripTagPass_cons_skip t '>' _ (matchStripTagAt_cons_ne t '>' (by decide) _)]
  rw [stripTagPass_append_no_lt t X ['<', '/', 'p', 'r', 'e', '>'] h]
  rw [stripTagPass_cons_skip t '<' _ hclose]
  rw [stripTagPass_cons_skip t '/' _ (matchStripTagAt_cons_ne t '/' (by decide) _)]
  rw [stripTagPass_cons_skip t 'p' _ (matchStripTagAt_cons_ne t 'p' (by decide) _)]
  rw [stripTagPass_cons_skip t 'r' _ (matchStripTagAt_cons_ne t 'r' (by decide) _)]
  rw [stripTagPass_cons_skip t 'e' _ (matchStripTagAt_cons_ne t 'e' (by decide) _)]
  rw [stripTagPass_cons_skip t '>' _ (matchStripTagAt_cons_ne t '>' (by decide) _)]
  rw [show stripTagPass t [] = [] from rfl]

theorem pPrefix_cons_ne (c : Char) (h : c ≠ '<') (cs : List Char) :
    ("<p>".data).isPrefixOf (c :: cs) = false := by
  rw [show ("<p>".data : List Char) = '<' :: 'p' :: '>' :: [] from rfl]
  simp only [List.isPrefixOf, Bool.and_eq_false_iff]
  left
  simp [Ne.symm h]

theorem pPass_cons_skip (c : Char) (cs : List Char)
    (h : ("<p>".data).isPrefixOf (c :: cs) = false) :
    pPass (c :: cs) = c :: pPass cs := by
  unfold pPass
  rw [show (c :: cs).length + 1 = (cs.length + 1) + 1 from rfl]
  simp only [pPassAux, h, Bool.false_eq_true, if_false]

theorem pPass_append_no_lt (X ys : List Char) (h : ∀ c ∈ X, c ≠ '<') :
    pPass (X ++ ys) = X ++ pPass ys := by
  induction X with
  | nil => rfl
  | cons c cs ih =>
    simp only [List.cons_append]
    rw [pPass_cons_skip c _ (pPrefix_cons_ne c (h c (by simp)) _),
      ih (fun d hd => h d (by simp [hd]))]

theorem pPass_shape (X : List Char) (h : ∀ c ∈ X, c ≠ '<') :
    pPass (['<', 'p', 'r', 'e', '>'] ++ X ++ ['<', '/', 'p', 'r', 'e', '>']) = ['<', 'p', 'r', 'e', '>'] ++ X ++ ['<', '/', 'p', 'r', 'e', '>'] := by
  have e1 : ['<', 'p', 'r', 'e', '>'] ++ X ++ ['<', '/', 'p', 'r', 'e', '>'] =
      '<' :: ('p' :: 'r' :: 'e' :: '>' :: (X ++ ['<', '/', 'p', 'r', 'e', '>'])) := rfl
  rw [e1]
  rw [pPass_cons_skip '<' _ (by rfl)]
  rw [pPass_cons_skip 'p' _ (pPrefix_cons_ne 'p' (by decide) _)]
  rw [pPass_cons_skip 'r' _ (pPrefix_cons_ne 'r' (by decide) _)]
  rw [pPass_cons_skip 'e' _ (pPrefix_cons_ne 'e' (by decide) _)]
  rw [pPass_cons_skip '>' _ (pPrefix_cons_ne '>' (by decide) _)]
  rw [pPass_append_no_lt X ['<', '/', 'p', 'r', 'e', '>'] h]
  rw [pPass_cons_skip '<' _ (by rfl)]
  rw [pPass_cons_skip '/' _ (pPrefix_cons_ne '/' (by decide) _)]
  rw [pPass_cons_skip 'p' _ (pPrefix_cons_ne 'p' (by decide) _)]
  rw [pPass_cons_skip 'r' _ (pPrefix_cons_ne 'r' (by decide) _)]
  rw [pPass_cons_skip 'e' _ (pPrefix_cons_ne 'e' (by decide) _)]
  rw [pPass_cons_skip '>' _ (pPrefix_cons_ne '>' (by decide) _)]
  rw [show pPass [] = [] from rfl]


/-- Claim C6, amended: the normalizer preserves `<pre>` content up to the
stated leading-newline strip and per-block indentation strip whenever the
content gives the later global passes nothing to rewrite (formalized for
content free of `<`); the claim's unconditional "preserved exactly" fails
because the `<br>`→newline, `span`/`div`-strip and `<p>`-content passes run
after restoration and also rewrite pre content (see the counterexample).
The second conjunct shows two blocks in one document tracked independently:
each gets its own leading-newline strip and its own detected indentation. -/
theorem claim_C6_pre_normalization :
    (∀ (ws content : List Char), ws.all isSpaceTab = true → (∀ c ∈ content, c ≠ '<') →
      compressHTML (String.mk (ws ++ "<pre>".data ++ content ++ "</pre>".data)) =
        String.mk ("<pre>".data ++ stripIndent ws (stripLeadingNewline content) ++ "</pre>".data)) ∧
    compressHTML "  <pre>\n  x</pre> <pre>\n y</pre>" = "<pre>x</pre><pre>y</pre>" := by
  constructor
  · intro ws content hws h
    have hassoc : ws ++ "<pre>".data ++ content ++ "</pre>".data =
        ws ++ ("<pre>".data ++ (content ++ "</pre>".data)) := by
      simp [List.append_assoc]
    rw [hassoc]
    have hdata : (String.mk (ws ++ ("<pre>".data ++ (content ++ "</pre>".data)))).data =
        ws ++ ("<pre>".data ++ (content ++ "</pre>".data)) := rfl
    have hX : ∀ c ∈ stripIndent ws (stripLeadingNewline content), c ≠ '<' :=
      stripIndent_no_lt ws _ (stripLeadingNewline_no_lt content h)
    simp only [compressHTML, hdata, preExtractPass_shape ws content hws h,
      attrExtract_mid, removeNl_mid, attrRestore_mid]
    rw [preRestore_mid]
    rw [replaceBrsL_shape _ hX]
    rw [stripTagPass_shape ['s', 'p', 'a', 'n'] _ hX (by rfl) (by rfl)]
    rw [stripTagPass_shape ['d', 'i', 'v'] _ hX (by rfl) (by rfl)]
    rw [pPass_shape _ hX]
  · rfl

/-- Witness for the amended claim C6, realizing the spec's own example: a
two-space-indented `<pre>` block has exactly that indentation stripped from
each content line, preserving relative indentation. -/
theorem claim_C6_witness :
    compressHTML "  <pre>  line1\n    line2</pre>" = "<pre>line1\n  line2</pre>" := by
  have h := claim_C6_pre_normalization.1 ("  ".data) ("  line1\n    line2".data) (by decide) (by decide)
  rw [show ("  <pre>  line1\n    line2</pre>" : String) =
    String.mk ("  ".data ++ "<pre>".data ++ "  line1\n    line2".data ++ "</pre>".data) from rfl]
  rw [h]
  rfl


/-- Claim C6, counterexample: `<pre>` content containing `<br>` is not
preserved up to the two stated exceptions — the later `<br>`→newline pass
rewrites the restored content, so the normalized block differs from the
claimed (exactly-preserved) one. -/
theorem claim_C6_counterexample :
    compressHTML "<pre>a<br>b</pre>" = "<pre>a\nb</pre>" ∧
    ¬compressHTML "<pre>a<br>b</pre>" = "<pre>a<br>b</pre>" :=
  ⟨by rfl, by decide⟩

end HtmlToSlack
